import Mathlib

/-!
Verification of the audio feature-extraction core of an embedded sound-event
detector (`src/audio_processing.h`, `src/audio_processing.cpp`).

The C code works on single-precision floating-point buffers; the embedding
models float values as exact real numbers and fixed-size C arrays as total
maps from array indices, with every store translated to an explicit
functional update.  C `for` loops are translated to folds over the ranges
the loops traverse.
-/

noncomputable section

/-! ## Configuration constants (audio_processing.h, lines 7-14) -/

def SAMPLE_RATE : ℕ := 16000

def FFT_SIZE : ℕ := 512

def NUM_MELS : ℕ := 40

def NUM_FRAMES : ℕ := 49

def HOP_LENGTH : ℕ := 160

def BUFFER_SIZE : ℕ := NUM_FRAMES * HOP_LENGTH + FFT_SIZE

def MIN_FREQ : ℕ := 20

def MAX_FREQ : ℕ := 8000

/-! ## applyHannWindow (audio_processing.cpp, lines 5-9) -/

/-- `applyHannWindow`: multiplies `buffer[i]` by the Hann coefficient
`0.5 * (1 - cos(2*pi*i/(size-1)))` for each `i < size` (lines 5-9).
Entries outside the written range keep their previous value. -/
def applyHannWindow (buffer : ℕ → ℝ) (size : ℕ) : ℕ → ℝ := fun i =>
  if i < size then
    buffer i * (0.5 * (1 - Real.cos (2 * Real.pi * i / ((size - 1 : ℕ) : ℝ))))
  else buffer i

/-! ## computeFFT (audio_processing.cpp, lines 12-53) -/

/-- Working state of `computeFFT`: the local arrays `real[]` and `imag[]`
(lines 13-14), modelled as total maps on indices. -/
@[ext]
structure FFTState where
  re : ℕ → ℝ
  im : ℕ → ℝ

/-- One butterfly update (lines 33-39): with twiddle `w`, reads the pair at
positions `lo = k+j` and `hi = k+j+m/2`, forms `t = w * (re[hi], im[hi])`
and writes `hi := lo - t`, `lo := lo + t` (both sides read the pre-update
values, exactly as the C statement order does). -/
def butterflyStep (w : ℝ × ℝ) (lo hi : ℕ) (st : FFTState) : FFTState :=
  let tre := w.1 * st.re hi - w.2 * st.im hi
  let tim := w.1 * st.im hi + w.2 * st.re hi
  { re := fun i => if i = hi then st.re lo - tre else if i = lo then st.re lo + tre else st.re i
    im := fun i => if i = hi then st.im lo - tim else if i = lo then st.im lo + tim else st.im i }

/-- Body of the inner `j` loop (lines 32-45): butterfly with the current
twiddle `acc.1`, then advance the twiddle by one complex multiplication
with `wm` (lines 41-44). -/
def jStep (wm : ℝ × ℝ) (k half : ℕ) (acc : (ℝ × ℝ) × FFTState) (j : ℕ) :
    (ℝ × ℝ) × FFTState :=
  ((acc.1.1 * wm.1 - acc.1.2 * wm.2, acc.1.1 * wm.2 + acc.1.2 * wm.1),
    butterflyStep acc.1 (k + j) (k + j + half) acc.2)

/-- The `k`-block body (lines 28-46): the twiddle starts at `(1, 0)`
(lines 29-30) and `j` runs over `[0, m/2)`. -/
def blockLoop (wm : ℝ × ℝ) (half k : ℕ) (st : FFTState) : FFTState :=
  ((List.range half).foldl (jStep wm k half) ((1, 0), st)).2

/-- One stage of the transform (lines 23-47): `m = 2^stage`, stage twiddle
`wm = (cos(2*pi/m), -sin(2*pi/m))` (lines 24-26), and `k` runs over the
multiples of `m` below `size` (line 28), i.e. `ceil(size/m)` blocks. -/
def stageStep (size stage : ℕ) (st : FFTState) : FFTState :=
  let m : ℕ := 2 ^ stage
  let wm : ℝ × ℝ := (Real.cos (2 * Real.pi / (m : ℝ)), -Real.sin (2 * Real.pi / (m : ℝ)))
  (List.range ((size + m - 1) / m)).foldl (fun s b => blockLoop wm (m / 2) (b * m) s) st

/-- The stage loop (line 23): `stage` runs from `1` to `log2(size)`; for the
power-of-two sizes the transform is specified for, the C `log2` of an `int`
size agrees with `Nat.log2`. -/
def fftStages (size : ℕ) (st : FFTState) : FFTState :=
  (List.range (Nat.log2 size)).foldl (fun s t => stageStep size (t + 1) s) st

/-- `computeFFT` (lines 12-53): copy the input into `real[]` with zero
`imag[]` (lines 17-20), run the stages, then overwrite the first `size/2`
slots of the buffer with `sqrt(re^2 + im^2)` (lines 50-52); the remaining
slots keep their previous content. -/
def computeFFT (buffer : ℕ → ℝ) (size : ℕ) : ℕ → ℝ :=
  let st := fftStages size ⟨fun i => if i < size then buffer i else 0, fun _ => 0⟩
  fun i => if i < size / 2 then Real.sqrt (st.re i * st.re i + st.im i * st.im i)
  else buffer i

/-! ## Mel scale conversions (audio_processing.cpp, lines 56-63) -/

/-- `hzToMel` (lines 56-58): `2595 * log10(1 + hz/700)`. -/
def hzToMel (hz : ℝ) : ℝ := 2595 * Real.logb 10 (1 + hz / 700)

/-- `melToHz` (lines 61-63): `700 * (10^(mel/2595) - 1)`. -/
def melToHz (mel : ℝ) : ℝ := 700 * ((10 : ℝ) ^ (mel / 2595) - 1)

/-! ## computeMelFilterbank (audio_processing.cpp, lines 66-104) -/

/-- `mel_min` (line 67). -/
def mel_min : ℝ := hzToMel MIN_FREQ

/-- `mel_max` (line 68). -/
def mel_max : ℝ := hzToMel MAX_FREQ

/-- `mel_step` (line 69). -/
def mel_step : ℝ := (mel_max - mel_min) / ((NUM_MELS : ℝ) + 1)

/-- `mel_points[i]` (lines 72-75). -/
def mel_points (i : ℕ) : ℝ := mel_min + i * mel_step

/-- `freq_points[i]` (lines 78-81). -/
def freq_points (i : ℕ) : ℝ := melToHz (mel_points i)

/-- `fft_indices[i]` (lines 84-87): `roundf(freq_points[i] * FFT_SIZE /
SAMPLE_RATE)` stored in an `int`.  The rounded quantities are nonnegative
here, where C `roundf` (round half away from zero) agrees with Mathlib's
`round` (floor of `x + 1/2`). -/
def fft_indices (i : ℕ) : ℤ := round (freq_points i * FFT_SIZE / SAMPLE_RATE)

/-- `fft_indices[i]` as a natural number bin index (the construction only
produces nonnegative indices). -/
def fftBin (i : ℕ) : ℕ := (fft_indices i).toNat

/-- The triangular weight of lines 94-99 for a filter with bin triple
`(l, c, r)` at bin `j`: the rising edge `(j-l)/(c-l)` when `j < c`, the
falling edge `(r-j)/(r-c)` otherwise.  The C `int` subtractions and the
`int`-to-`float` conversions are modelled by real subtraction of the casts. -/
def melWeight (l c r j : ℕ) : ℝ :=
  if j < c then ((j : ℝ) - (l : ℝ)) / ((c : ℝ) - (l : ℝ))
  else ((r : ℝ) - (j : ℝ)) / ((r : ℝ) - (c : ℝ))

/-- The accumulation loop of lines 91-102 for one filter: starting from `0`,
`j` runs from `l` to `r - 1` (the C loop variable is an `int`; the bin
triples produced by the construction are nonnegative, so the traversed
values are exactly `l + t` for `t < r - l`), and bins with
`j < FFT_SIZE/2` contribute `magnitude[j] * weight`. -/
def melEnergyLoop (mags : ℕ → ℝ) (l c r : ℕ) : ℝ :=
  (List.range (r - l)).foldl
    (fun acc t =>
      if l + t < FFT_SIZE / 2 then acc + mags (l + t) * melWeight l c r (l + t) else acc)
    0

/-- `computeMelFilterbank` (lines 66-104): filter `i` uses the bin triple
`(fft_indices[i], fft_indices[i+1], fft_indices[i+2])`. -/
def computeMelFilterbank (mags : ℕ → ℝ) : ℕ → ℝ := fun i =>
  melEnergyLoop mags (fftBin i) (fftBin (i + 1)) (fftBin (i + 2))

/-! ## normalizeSpectrogram (audio_processing.cpp, lines 107-120) -/

/-- The maximum-scan loop of lines 108-113: `max_val` starts at `0` and is
replaced by `spectrogram[i]` whenever `spectrogram[i] > max_val`. -/
def maxVal (sp : ℕ → ℝ) (size : ℕ) : ℝ :=
  (List.range size).foldl (fun m i => if sp i > m then sp i else m) 0

/-- `normalizeSpectrogram` (lines 107-120): if `max_val > 0`, every slot
below `size` is divided by `max_val`; otherwise the array is untouched. -/
def normalizeSpectrogram (sp : ℕ → ℝ) (size : ℕ) : ℕ → ℝ :=
  if maxVal sp size > 0 then fun i => if i < size then sp i / maxVal sp size else sp i
  else sp

/-! ## audioToMelSpectrogram (audio_processing.cpp, lines 123-149) -/

/-- The memory the function can reach through its two pointer parameters:
the caller's audio buffer and the caller's spectrogram buffer. -/
@[ext]
structure MachineState where
  audio : ℕ → ℝ
  spec : ℕ → ℝ

/-- The frame-extraction loop of lines 129-132: `fft_buffer[i] =
(frame * HOP_LENGTH + i < BUFFER_SIZE) ? audio[idx] : 0`. -/
def frameBuffer (audio : ℕ → ℝ) (frame : ℕ) : ℕ → ℝ := fun i =>
  if frame * HOP_LENGTH + i < BUFFER_SIZE then audio (frame * HOP_LENGTH + i) else 0

/-- The per-frame pipeline of lines 129-139: extract the frame, apply the
Hann window, run `computeFFT`, apply the mel filterbank; the result is the
local `mel_energies` array. -/
def frameEnergies (audio : ℕ → ℝ) (frame : ℕ) : ℕ → ℝ :=
  computeMelFilterbank (computeFFT (applyHannWindow (frameBuffer audio frame) FFT_SIZE) FFT_SIZE)

/-- The body of the frame loop (lines 127-144): compute the frame's mel
energies, then store energy `mel` at `spectrogram[mel * NUM_FRAMES + frame]`
(lines 142-144). -/
def writeFrame (st : MachineState) (frame : ℕ) : MachineState :=
  let energies := frameEnergies st.audio frame
  (List.range NUM_MELS).foldl
    (fun s mel =>
      { s with spec := Function.update s.spec (mel * NUM_FRAMES + frame) (energies mel) })
    st

/-- `audioToMelSpectrogram` (lines 123-149): run the frame loop for frames
`0..NUM_FRAMES-1`, then normalize the whole spectrogram of
`NUM_MELS * NUM_FRAMES` values in place (line 148). -/
def audioToMelSpectrogram (st : MachineState) : MachineState :=
  let st1 := (List.range NUM_FRAMES).foldl writeFrame st
  { st1 with spec := normalizeSpectrogram st1.spec (NUM_MELS * NUM_FRAMES) }

/-! ## Specification-side definitions

These definitions follow the wording of the specification (not the source)
and are used to compare the code against its stated contract. -/

/-- Modelled from the spec (section 4.2): real part of the standard DFT
`X_k = sum over n of x_n * e^(-2*pi*i*k*n/N)`. -/
def dftRe (x : ℕ → ℝ) (N k : ℕ) : ℝ :=
  ∑ j in Finset.range N, x j * Real.cos (2 * Real.pi * k * j / N)

/-- Modelled from the spec (section 4.2): imaginary part of the standard
DFT `X_k = sum over n of x_n * e^(-2*pi*i*k*n/N)`. -/
def dftIm (x : ℕ → ℝ) (N k : ℕ) : ℝ :=
  -∑ j in Finset.range N, x j * Real.sin (2 * Real.pi * k * j / N)

/-- Modelled from the spec (section 4.2): `magnitude[k] =
sqrt(Re(X_k)^2 + Im(X_k)^2)`. -/
def dftMagnitude (x : ℕ → ℝ) (N k : ℕ) : ℝ :=
  Real.sqrt (dftRe x N k ^ 2 + dftIm x N k ^ 2)

/-- Modelled from the spec (section 4.3): triangular weight, rising edge
`(j-left)/(center-left)` for bins `j < center`, falling edge
`(right-j)/(right-center)` for bins `j >= center`. -/
def specWeight (l c r j : ℕ) : ℝ :=
  if j < c then ((j : ℝ) - (l : ℝ)) / ((c : ℝ) - (l : ℝ))
  else ((r : ℝ) - (j : ℝ)) / ((r : ℝ) - (c : ℝ))

/-- Modelled from the spec (section 4.3): the band energy of filter
`(l, c, r)` is the sum over spectrum bins `j` with `l <= j < r` and
`j < N/2` of `magnitude[j] * weight(j)`. -/
def specBandEnergy (mags : ℕ → ℝ) (l c r : ℕ) : ℝ :=
  ∑ j in (Finset.Ico l r).filter (fun j => j < FFT_SIZE / 2), mags j * specWeight l c r j

/-- The (pre-normalization) feature-matrix entry for mel band `b` at frame
`f`. -/
def featureMatrix (audio : ℕ → ℝ) (b f : ℕ) : ℝ := frameEnergies audio f b

/-- The maximum entry of the feature matrix, scanned in the flat
`band * NUM_FRAMES + frame` order. -/
def featureMax (audio : ℕ → ℝ) : ℝ :=
  maxVal (fun idx => featureMatrix audio (idx / NUM_FRAMES) (idx % NUM_FRAMES))
    (NUM_MELS * NUM_FRAMES)

/-- Modelled from the spec (sections 4.5 and 6): the final feature value of
band `b` at frame `f` is the matrix entry divided by the global maximum
when that maximum is positive, and the unchanged entry otherwise. -/
def finalFeature (audio : ℕ → ℝ) (b f : ℕ) : ℝ :=
  if 0 < featureMax audio then featureMatrix audio b f / featureMax audio
  else featureMatrix audio b f

/-- The impulse input: `x[0] = 1`, all other entries `0`. -/
def impulse : ℕ → ℝ := fun i => if i = 0 then 1 else 0

/-- The two-point input `x[0] = x[1] = 1`, all other entries `0`. -/
def twoPoint : ℕ → ℝ := fun i => if i = 0 then 1 else if i = 1 then 1 else 0

/-! ## Loop-invariant lemmas for the spectral transform -/

lemma jStep_snd (wm : ℝ × ℝ) (k half : ℕ) (acc : (ℝ × ℝ) × FFTState) (j : ℕ) :
    (jStep wm k half acc j).2 = butterflyStep acc.1 (k + j) (k + j + half) acc.2 := rfl

/-- When the upper element of a butterfly is zero, the butterfly copies the
lower element into the upper slot and leaves everything else unchanged,
whatever the twiddle is. -/
lemma butterflyStep_zero_hi (w : ℝ × ℝ) (lo hi : ℕ) (st : FFTState)
    (hre : st.re hi = 0) (him : st.im hi = 0) :
    butterflyStep w lo hi st =
      ⟨fun i => if i = hi then st.re lo else st.re i,
        fun i => if i = hi then st.im lo else st.im i⟩ := by
  unfold butterflyStep
  ext i
  · simp only [hre, him, mul_zero, sub_zero, add_zero, zero_sub, neg_zero, zero_add]
    rcases eq_or_ne i hi with h | h
    · simp [h]
    · rcases eq_or_ne i lo with h2 | h2 <;> simp [h, h2]
  · simp only [hre, him, mul_zero, sub_zero, add_zero, zero_sub, neg_zero, zero_add]
    rcases eq_or_ne i hi with h | h
    · simp [h]
    · rcases eq_or_ne i lo with h2 | h2 <;> simp [h, h2]

/-- Running the first `t` butterflies of a block whose upper half is
entirely zero copies the lower elements `k+j` (for `j < t`) into the upper
slots `k+half+j` and changes nothing else. -/
lemma jloop_copy (wm w0 : ℝ × ℝ) (k half t : ℕ) (st : FFTState) (ht : t ≤ half)
    (hup : ∀ j, j < half → st.re (k + half + j) = 0 ∧ st.im (k + half + j) = 0) :
    ((List.range t).foldl (jStep wm k half) (w0, st)).2 =
      ⟨fun i => if k + half ≤ i ∧ i < k + half + t then st.re (i - half) else st.re i,
        fun i => if k + half ≤ i ∧ i < k + half + t then st.im (i - half) else st.im i⟩ := by
  induction t with
  | zero =>
      simp only [List.range_zero, List.foldl_nil]
      ext i
      · simp only
        rw [if_neg (by omega)]
      · simp only
        rw [if_neg (by omega)]
  | succ t ih =>
      have htt : t < half := ht
      rw [List.range_succ t, List.foldl_append, List.foldl_cons, List.foldl_nil, jStep_snd,
        ih (le_of_lt htt)]
      have hre0 : st.re (k + t + half) = 0 := by
        have h := (hup t htt).1
        rwa [show k + half + t = k + t + half from by omega] at h
      have him0 : st.im (k + t + half) = 0 := by
        have h := (hup t htt).2
        rwa [show k + half + t = k + t + half from by omega] at h
      rw [butterflyStep_zero_hi _ _ _ _ (by simp only; rw [if_neg (by omega)]; exact hre0)
        (by simp only; rw [if_neg (by omega)]; exact him0)]
      ext i
      · simp only
        split_ifs <;> first | rfl | (congr 1; omega)
      · simp only
        split_ifs <;> first | rfl | (congr 1; omega)

/-- A full block whose upper half is zero copies its lower half up. -/
lemma blockLoop_copy (wm : ℝ × ℝ) (half k : ℕ) (st : FFTState)
    (hup : ∀ j, j < half → st.re (k + half + j) = 0 ∧ st.im (k + half + j) = 0) :
    blockLoop wm half k st =
      ⟨fun i => if k + half ≤ i ∧ i < k + half + half then st.re (i - half) else st.re i,
        fun i => if k + half ≤ i ∧ i < k + half + half then st.im (i - half) else st.im i⟩ := by
  unfold blockLoop
  exact jloop_copy wm (1, 0) k half half st le_rfl hup

/-- A block that is entirely zero is left unchanged. -/
lemma blockLoop_zero (wm : ℝ × ℝ) (half k : ℕ) (st : FFTState)
    (hz : ∀ j, j < half + half → st.re (k + j) = 0 ∧ st.im (k + j) = 0) :
    blockLoop wm half k st = st := by
  rw [blockLoop_copy wm half k st (fun j hj => by
    have h := hz (half + j) (by omega)
    rwa [← Nat.add_assoc] at h)]
  ext i
  · simp only
    split_ifs with h
    · have h1 := (hz (i - half - k) (by omega)).1
      have h2 := (hz (i - k) (by omega)).1
      rw [show k + (i - half - k) = i - half from by omega] at h1
      rw [show k + (i - k) = i from by omega] at h2
      rw [h1, h2]
    · rfl
  · simp only
    split_ifs with h
    · have h1 := (hz (i - half - k) (by omega)).2
      have h2 := (hz (i - k) (by omega)).2
      rw [show k + (i - half - k) = i - half from by omega] at h1
      rw [show k + (i - k) = i from by omega] at h2
      rw [h1, h2]
    · rfl

/-- A run of blocks that all start at or beyond the support of the state
leaves the state unchanged. -/
lemma foldl_blockLoop_high (wm : ℝ × ℝ) (half m bound : ℕ) (l : List ℕ) (st : FFTState)
    (hz : ∀ i, bound ≤ i → st.re i = 0 ∧ st.im i = 0)
    (hl : ∀ b ∈ l, bound ≤ b * m) :
    l.foldl (fun s b => blockLoop wm half (b * m) s) st = st := by
  induction l with
  | nil => rfl
  | cons b l ih =>
      rw [List.foldl_cons, blockLoop_zero _ _ _ _ (fun j _ =>
        hz (b * m + j) (le_trans (hl b (List.mem_cons_self _ _)) (Nat.le_add_right _ _)))]
      exact ih fun b hb => hl b (List.mem_cons_of_mem _ hb)

/-- Stage `s+1` on a state supported on `[0, 2^s)` duplicates the support
segment to `[0, 2^(s+1))`: every butterfly has a zero upper element, so the
lower half of block `0` is copied up and all other blocks stay zero. -/
lemma stageStep_doubling (n s : ℕ) (hs : s < n) (st : FFTState)
    (hz : ∀ i, 2 ^ s ≤ i → st.re i = 0 ∧ st.im i = 0) :
    stageStep (2 ^ n) (s + 1) st =
      ⟨fun i => if i < 2 ^ (s + 1) then st.re (i % 2 ^ s) else 0,
        fun i => if i < 2 ^ (s + 1) then st.im (i % 2 ^ s) else 0⟩ := by
  have hP : 0 < 2 ^ s := Nat.two_pow_pos s
  have hPP : 2 ^ (s + 1) = 2 ^ s + 2 ^ s := by rw [pow_succ]; omega
  have hsplit : 2 ^ n = 2 ^ (s + 1) * 2 ^ (n - (s + 1)) := by
    rw [← pow_add]; congr 1; omega
  have hcount : (2 ^ n + 2 ^ (s + 1) - 1) / 2 ^ (s + 1) = 2 ^ (n - (s + 1)) := by
    rw [hsplit, show 2 ^ (s + 1) * 2 ^ (n - (s + 1)) + 2 ^ (s + 1) - 1
        = 2 ^ (s + 1) * 2 ^ (n - (s + 1)) + (2 ^ (s + 1) - 1) from by omega,
      Nat.mul_add_div (Nat.two_pow_pos _), Nat.div_eq_of_lt (by omega), Nat.add_zero]
  have hhalf : 2 ^ (s + 1) / 2 = 2 ^ s := by rw [pow_succ]; exact Nat.mul_div_cancel _ (by norm_num)
  unfold stageStep
  simp only [hcount, hhalf]
  rw [show 2 ^ (n - (s + 1)) = (2 ^ (n - (s + 1)) - 1) + 1 from by
      have := Nat.two_pow_pos (n - (s + 1)); omega,
    List.range_succ_eq_map _, List.foldl_cons, Nat.zero_mul]
  rw [blockLoop_copy _ _ _ _ (fun j hj => by
    constructor
    · exact (hz (0 + 2 ^ s + j) (by omega)).1
    · exact (hz (0 + 2 ^ s + j) (by omega)).2)]
  rw [foldl_blockLoop_high _ _ _ (2 ^ (s + 1)) _ _
    (fun i hi => by
      constructor
      · simp only
        rw [if_neg (by omega)]
        exact (hz i (by omega)).1
      · simp only
        rw [if_neg (by omega)]
        exact (hz i (by omega)).2)
    (fun b hb => by
      rcases List.mem_map.mp hb with ⟨x, _, hx⟩
      have hb1 : 1 ≤ b := by omega
      calc 2 ^ (s + 1) = 1 * 2 ^ (s + 1) := (Nat.one_mul _).symm
        _ ≤ b * 2 ^ (s + 1) := Nat.mul_le_mul_right _ hb1)]
  ext i
  · simp only
    by_cases h1 : i < 2 ^ s
    · rw [if_neg (by omega), if_pos (by omega), Nat.mod_eq_of_lt h1]
    · by_cases h2 : i < 2 ^ (s + 1)
      · rw [if_pos (by omega), if_pos h2, Nat.mod_eq_sub_mod (by omega),
          Nat.mod_eq_of_lt (by omega)]
      · rw [if_neg (by omega), if_neg h2]
        exact (hz i (by omega)).1
  · simp only
    by_cases h1 : i < 2 ^ s
    · rw [if_neg (by omega), if_pos (by omega), Nat.mod_eq_of_lt h1]
    · by_cases h2 : i < 2 ^ (s + 1)
      · rw [if_pos (by omega), if_pos h2, Nat.mod_eq_sub_mod (by omega),
          Nat.mod_eq_of_lt (by omega)]
      · rw [if_neg (by omega), if_neg h2]
        exact (hz i (by omega)).2

/-- Running stages `a+1, ..., a+b` on a state supported on `[0, 2^a)`
replicates the support segment `2^b` times. -/
lemma stagesFrom_doubling (n a b : ℕ) (hab : a + b ≤ n) (st : FFTState)
    (hz : ∀ i, 2 ^ a ≤ i → st.re i = 0 ∧ st.im i = 0) :
    (List.range b).foldl (fun s t => stageStep (2 ^ n) (a + t + 1) s) st =
      ⟨fun i => if i < 2 ^ (a + b) then st.re (i % 2 ^ a) else 0,
        fun i => if i < 2 ^ (a + b) then st.im (i % 2 ^ a) else 0⟩ := by
  induction b with
  | zero =>
      simp only [List.range_zero, List.foldl_nil]
      ext i
      · simp only [Nat.add_zero]
        by_cases h : i < 2 ^ a
        · rw [if_pos h, Nat.mod_eq_of_lt h]
        · rw [if_neg h]
          exact (hz i (by omega)).1
      · simp only [Nat.add_zero]
        by_cases h : i < 2 ^ a
        · rw [if_pos h, Nat.mod_eq_of_lt h]
        · rw [if_neg h]
          exact (hz i (by omega)).2
  | succ b ih =>
      rw [List.range_succ b, List.foldl_append, List.foldl_cons, List.foldl_nil, ih (by omega)]
      rw [stageStep_doubling n (a + b) (by omega) _ (fun i hi => by
        constructor
        · simp only
          rw [if_neg (by omega)]
        · simp only
          rw [if_neg (by omega)])]
      ext i
      · simp only
        by_cases h : i < 2 ^ (a + b + 1)
        · rw [if_pos h, if_pos (show i < 2 ^ (a + (b + 1)) from h),
            if_pos (Nat.mod_lt _ (Nat.two_pow_pos _)),
            Nat.mod_mod_of_dvd _ (pow_dvd_pow 2 (Nat.le_add_right a b))]
        · rw [if_neg h, if_neg (show ¬i < 2 ^ (a + (b + 1)) from h)]
      · simp only
        by_cases h : i < 2 ^ (a + b + 1)
        · rw [if_pos h, if_pos (show i < 2 ^ (a + (b + 1)) from h),
            if_pos (Nat.mod_lt _ (Nat.two_pow_pos _)),
            Nat.mod_mod_of_dvd _ (pow_dvd_pow 2 (Nat.le_add_right a b))]
        · rw [if_neg h, if_neg (show ¬i < 2 ^ (a + (b + 1)) from h)]

/-- The full stage loop on a power-of-two size, for a state supported on
index `0` only: the value at `0` is replicated to every index below `2^n`. -/
lemma fftStages_single (n : ℕ) (st : FFTState)
    (hz : ∀ i, 1 ≤ i → st.re i = 0 ∧ st.im i = 0) :
    fftStages (2 ^ n) st =
      ⟨fun i => if i < 2 ^ n then st.re 0 else 0,
        fun i => if i < 2 ^ n then st.im 0 else 0⟩ := by
  unfold fftStages
  rw [show Nat.log2 (2 ^ n) = n from by
    rw [Nat.log2_eq_log_two]; exact Nat.log_pow (by norm_num) n]
  have hfun : (fun (s : FFTState) (t : ℕ) => stageStep (2 ^ n) (t + 1) s)
      = fun s t => stageStep (2 ^ n) (0 + t + 1) s := by
    funext s t
    rw [Nat.zero_add]
  rw [hfun, stagesFrom_doubling n 0 n (by omega) st (by simpa using hz)]
  ext i
  · simp only [Nat.zero_add, pow_zero, Nat.mod_one]
  · simp only [Nat.zero_add, pow_zero, Nat.mod_one]

/-- On the impulse input every retained output bin of `computeFFT` is `1`. -/
lemma computeFFT_impulse_bin (n k : ℕ) (hk : k < 2 ^ n / 2) :
    computeFFT impulse (2 ^ n) k = 1 := by
  have hk2 : k < 2 ^ n := lt_of_lt_of_le hk (Nat.div_le_self _ _)
  simp only [computeFFT]
  rw [if_pos hk, fftStages_single n _ (fun i hi => by
    constructor
    · show (if i < 2 ^ n then impulse i else 0) = 0
      have h0 : impulse i = 0 := by
        simp only [impulse]
        rw [if_neg (by omega)]
      rw [h0, ite_self]
    · rfl)]
  simp [hk2, impulse, Nat.two_pow_pos, Real.sqrt_one]

/-- Claim C2: for every power-of-two size `N = 2^n`, running `computeFFT`
on the impulse input (`x[0] = 1`, all other entries `0`) yields the same
magnitude value at every one of the `N/2` output bins. -/
theorem claim_C2_fft_impulse_constant (n k l : ℕ) (hk : k < 2 ^ n / 2) (hl : l < 2 ^ n / 2) :
    computeFFT impulse (2 ^ n) k = computeFFT impulse (2 ^ n) l := by
  rw [computeFFT_impulse_bin n k hk, computeFFT_impulse_bin n l hl]

/-- Witness for claim C2 at `N = 4`, bins `0` and `1`. -/
theorem claim_C2_witness :
    (0 : ℕ) < 2 ^ 2 / 2 ∧ (1 : ℕ) < 2 ^ 2 / 2 ∧
      computeFFT impulse (2 ^ 2) 0 = computeFFT impulse (2 ^ 2) 1 :=
  ⟨by norm_num, by norm_num, claim_C2_fft_impulse_constant 2 0 1 (by norm_num) (by norm_num)⟩

/-- Stage 1 on the two-point input `x[0] = x[1] = 1`: block 0's single
butterfly leaves `(2, 0, 0, ...)`, every other block is zero. -/
lemma block0_twoPoint (wm : ℝ × ℝ) :
    blockLoop wm 1 0 ⟨fun i => if i < 512 then twoPoint i else 0, fun _ => 0⟩ =
      ⟨fun i => if i = 0 then 2 else 0, fun _ => 0⟩ := by
  unfold blockLoop
  rw [show List.range 1 = [0] from by simp [List.range_succ],
    List.foldl_cons, List.foldl_nil, jStep_snd]
  simp only [butterflyStep]
  ext i
  · by_cases h0 : i = 0
    · norm_num [h0, twoPoint]
    · by_cases h1 : i = 1
      · norm_num [h1, twoPoint]
      · norm_num [h0, h1, twoPoint]
  · by_cases h0 : i = 0
    · norm_num [h0]
    · by_cases h1 : i = 1
      · norm_num [h1]
      · norm_num [h0, h1]

/-- Stage 1 of the transform on the two-point input. -/
lemma stage1_twoPoint :
    stageStep 512 1 ⟨fun i => if i < 512 then twoPoint i else 0, fun _ => 0⟩ =
      ⟨fun i => if i = 0 then 2 else 0, fun _ => 0⟩ := by
  simp only [stageStep]
  simp only [show (2 : ℕ) ^ 1 = 2 from by norm_num]
  simp only [show (512 + 2 - 1) / 2 = 255 + 1 from by norm_num,
    show (2 : ℕ) / 2 = 1 from by norm_num]
  rw [List.range_succ_eq_map 255, List.foldl_cons,
    show (0 : ℕ) * 2 = 0 from by norm_num, block0_twoPoint]
  refine foldl_blockLoop_high _ 1 2 1 _ _ (fun i hi => ?_) (fun b hb => ?_)
  · constructor
    · show (if i = 0 then (2 : ℝ) else 0) = 0
      rw [if_neg (by omega)]
    · rfl
  · rcases List.mem_map.mp hb with ⟨x, _, hx⟩
    omega

/-- The full transform state on the two-point input: after stage 1 the
state is supported on index `0` alone, so the remaining eight stages only
replicate it across the even indices. -/
lemma fftStages_twoPoint :
    fftStages 512 ⟨fun i => if i < 512 then twoPoint i else 0, fun _ => 0⟩ =
      ⟨fun i => if i < 512 ∧ i % 2 = 0 then 2 else 0, fun _ => 0⟩ := by
  unfold fftStages
  rw [show Nat.log2 512 = 9 from by
    rw [show (512 : ℕ) = 2 ^ 9 from by norm_num, Nat.log2_eq_log_two]
    exact Nat.log_pow (by norm_num) 9]
  rw [show (9 : ℕ) = 8 + 1 from rfl, List.range_succ_eq_map 8, List.foldl_cons]
  simp only [Nat.zero_add]
  rw [stage1_twoPoint, List.foldl_map]
  have hfun : (fun (s : FFTState) (x : ℕ) => stageStep 512 (Nat.succ x + 1) s)
      = fun s x => stageStep (2 ^ 9) (1 + x + 1) s := by
    funext s x
    rw [show (512 : ℕ) = 2 ^ 9 from by norm_num, show Nat.succ x + 1 = 1 + x + 1 from by omega]
  rw [hfun]
  rw [stagesFrom_doubling 9 1 8 (by norm_num) _ (fun i hi => by
    constructor
    · show (if i = 0 then (2 : ℝ) else 0) = 0
      rw [if_neg (by omega)]
    · rfl)]
  ext i
  · simp only [show (2 : ℕ) ^ (1 + 8) = 512 from by norm_num,
      show (2 : ℕ) ^ 1 = 2 from by norm_num]
    by_cases h1 : i < 512
    · rw [if_pos h1]
      by_cases h2 : i % 2 = 0
      · rw [if_pos h2, if_pos ⟨h1, h2⟩]
      · rw [if_neg h2, if_neg (by tauto)]
    · rw [if_neg h1, if_neg (by tauto)]
  · show (if i < 2 ^ (1 + 8) then (0 : ℝ) else 0) = 0
    exact ite_self 0

/-- On the two-point input the code's output at bin `1` is exactly `0`. -/
lemma fft_twoPoint_bin1 : computeFFT twoPoint 512 1 = 0 := by
  simp only [computeFFT]
  rw [if_pos (show (1 : ℕ) < 512 / 2 from by norm_num), fftStages_twoPoint]
  norm_num [Real.sqrt_zero]

/-- The real part of the true DFT of the two-point input at bin `1` is
`1 + cos(2*pi/512)`, which is positive. -/
lemma dftRe_twoPoint_pos : 0 < dftRe twoPoint 512 1 := by
  unfold dftRe
  push_cast
  have hsplit : ∀ j : ℕ, twoPoint j * Real.cos (2 * Real.pi * 1 * j / 512)
      = (if j = 0 then Real.cos (2 * Real.pi * 1 * j / 512) else 0)
        + (if j = 1 then Real.cos (2 * Real.pi * 1 * j / 512) else 0) := by
    intro j
    unfold twoPoint
    by_cases h0 : j = 0
    · simp [h0]
    · by_cases h1 : j = 1
      · simp [h0, h1]
      · simp [h0, h1]
  rw [Finset.sum_congr rfl fun j _ => hsplit j, Finset.sum_add_distrib,
    Finset.sum_ite_eq' (Finset.range 512) 0, Finset.sum_ite_eq' (Finset.range 512) 1,
    if_pos (by norm_num : (0 : ℕ) ∈ Finset.range 512),
    if_pos (by norm_num : (1 : ℕ) ∈ Finset.range 512)]
  have h0 : Real.cos (2 * Real.pi * 1 * ((0 : ℕ) : ℝ) / 512) = 1 := by
    rw [show (2 * Real.pi * 1 * ((0 : ℕ) : ℝ) / 512) = 0 from by push_cast; ring]
    exact Real.cos_zero
  have h1 : 0 < Real.cos (2 * Real.pi * 1 * ((1 : ℕ) : ℝ) / 512) := by
    rw [show (2 * Real.pi * 1 * ((1 : ℕ) : ℝ) / 512) = Real.pi / 256 from by push_cast; ring]
    apply Real.cos_pos_of_mem_Ioo
    constructor
    · have := Real.pi_pos
      linarith
    · have := Real.pi_pos
      linarith
  rw [h0]
  linarith

/-- The true DFT magnitude of the two-point input at bin `1` is positive. -/
lemma dftMagnitude_twoPoint_pos : 0 < dftMagnitude twoPoint 512 1 := by
  unfold dftMagnitude
  apply Real.sqrt_pos.mpr
  have h := dftRe_twoPoint_pos
  have h2 : 0 < dftRe twoPoint 512 1 ^ 2 := pow_pos h 2
  have h3 := sq_nonneg (dftIm twoPoint 512 1)
  linarith

/-- Claim C1 fails on the code: `computeFFT` does not compute the standard
DFT magnitudes.  On the input `x[0] = x[1] = 1` (all other entries `0`) the
code's output at bin `1` is `0`, while the standard DFT magnitude of that
input at bin `1` is positive (namely `|1 + e^(-2*pi*i/512)| > 0`).  The
code omits the bit-reversal permutation an iterative fast transform needs. -/
theorem claim_C1_counterexample :
    computeFFT twoPoint 512 1 = 0 ∧ 0 < dftMagnitude twoPoint 512 1 :=
  ⟨fft_twoPoint_bin1, dftMagnitude_twoPoint_pos⟩

/-! ## Mel filterbank lemmas -/

/-- The accumulate-if loop pattern of lines 91-102 equals a guarded sum. -/
lemma foldl_ite_add_eq_sum (g : ℕ → ℝ) (p : ℕ → Prop) [DecidablePred p] (n : ℕ) (init : ℝ) :
    (List.range n).foldl (fun acc t => if p t then acc + g t else acc) init
      = init + ∑ t in Finset.range n, if p t then g t else 0 := by
  induction n with
  | zero => simp
  | succ n ih =>
      rw [List.range_succ n, List.foldl_append, List.foldl_cons, List.foldl_nil,
        Finset.sum_range_succ, ih]
      by_cases h : p n
      · rw [if_pos h, if_pos h]
        ring
      · rw [if_neg h, if_neg h]
        ring

/-- The filter-application loop as a closed sum over the loop range. -/
lemma melEnergyLoop_eq_sum (mags : ℕ → ℝ) (l c r : ℕ) :
    melEnergyLoop mags l c r
      = ∑ t in Finset.range (r - l),
          if l + t < FFT_SIZE / 2 then mags (l + t) * melWeight l c r (l + t) else 0 := by
  unfold melEnergyLoop
  rw [foldl_ite_add_eq_sum, zero_add]

/-- Claim C4: for every magnitude spectrum and every filter with bin triple
`(l, c, r)` with `l <= c <= r`, the computed band energy equals the sum over
bins `j` with `l <= j < r` and `j < N/2` of `magnitude[j] * weight(j)`, with
the rising-edge weight below the center bin and the falling-edge weight from
the center bin on; and this energy is non-negative. -/
theorem claim_C4_band_energy (mags : ℕ → ℝ) (l c r : ℕ) (_hlc : l ≤ c) (_hcr : c ≤ r)
    (hm : ∀ j, 0 ≤ mags j) :
    melEnergyLoop mags l c r = specBandEnergy mags l c r ∧ 0 ≤ melEnergyLoop mags l c r := by
  have heq : melEnergyLoop mags l c r = specBandEnergy mags l c r := by
    rw [melEnergyLoop_eq_sum]
    unfold specBandEnergy
    rw [Finset.sum_filter, Finset.sum_Ico_eq_sum_range]
    exact Finset.sum_congr rfl fun t _ => rfl
  refine ⟨heq, ?_⟩
  rw [heq]
  unfold specBandEnergy
  apply Finset.sum_nonneg
  intro j hj
  rcases Finset.mem_filter.mp hj with ⟨hjIco, _⟩
  rcases Finset.mem_Ico.mp hjIco with ⟨hjl, hjr⟩
  apply mul_nonneg (hm j)
  unfold specWeight
  split_ifs with h
  · apply div_nonneg
    · have hcast : (l : ℝ) ≤ (j : ℝ) := Nat.cast_le.mpr hjl
      linarith
    · have hcast : (l : ℝ) < (c : ℝ) := Nat.cast_lt.mpr (lt_of_le_of_lt hjl h)
      linarith
  · apply div_nonneg
    · have hcast : (j : ℝ) < (r : ℝ) := Nat.cast_lt.mpr hjr
      linarith
    · have hcast : (c : ℝ) < (r : ℝ) := Nat.cast_lt.mpr (lt_of_le_of_lt (le_of_not_lt h) hjr)
      linarith

/-- Witness for claim C4 with the triple `(0, 1, 2)` and all-ones spectrum. -/
theorem claim_C4_witness :
    melEnergyLoop (fun _ => 1) 0 1 2 = specBandEnergy (fun _ => 1) 0 1 2
      ∧ 0 ≤ melEnergyLoop (fun _ => 1) 0 1 2 :=
  claim_C4_band_energy (fun _ => 1) 0 1 2 (by norm_num) (by norm_num) fun _ => by norm_num

/-- Claim C3: for every bin triple with `l <= c <= r` (including the
degenerate cases `c = l` and `r = c`), every weight-computing branch that is
actually executed (rising branch only for `l <= j < c`, falling branch only
for `c <= j < r`) has a nonzero denominator, and a zero-width triangular
sub-range contributes a zero (empty) sum to the band energy. -/
theorem claim_C3_no_div_by_zero (l c r : ℕ) (_hlc : l ≤ c) (_hcr : c ≤ r) :
    (∀ j, l ≤ j → j < r →
      (j < c → ((c : ℝ) - (l : ℝ)) ≠ 0) ∧ (c ≤ j → ((r : ℝ) - (c : ℝ)) ≠ 0))
    ∧ (∀ mags : ℕ → ℝ, c = l → ∑ j in Finset.Ico l c, mags j * melWeight l c r j = 0)
    ∧ (∀ mags : ℕ → ℝ, r = c → ∑ j in Finset.Ico c r, mags j * melWeight l c r j = 0) := by
  refine ⟨fun j hjl hjr => ⟨fun hjc => ?_, fun hcj => ?_⟩,
    fun mags h => ?_, fun mags h => ?_⟩
  · have hcast : (l : ℝ) < (c : ℝ) := Nat.cast_lt.mpr (lt_of_le_of_lt hjl hjc)
    exact sub_ne_zero.mpr (ne_of_gt hcast)
  · have hcast : (c : ℝ) < (r : ℝ) := Nat.cast_lt.mpr (lt_of_le_of_lt hcj hjr)
    exact sub_ne_zero.mpr (ne_of_gt hcast)
  · rw [h, Finset.Ico_self, Finset.sum_empty]
  · rw [h, Finset.Ico_self, Finset.sum_empty]

/-- Witness for claim C3 with the triple `(1, 2, 3)`: the executed rising
branch at bin `1` and falling branch at bin `2` have nonzero denominators. -/
theorem claim_C3_witness :
    (((2 : ℕ) : ℝ) - ((1 : ℕ) : ℝ) ≠ 0) ∧ (((3 : ℕ) : ℝ) - ((2 : ℕ) : ℝ) ≠ 0) := by
  have h := claim_C3_no_div_by_zero 1 2 3 (by norm_num) (by norm_num)
  exact ⟨(h.1 1 le_rfl (by norm_num)).1 (by norm_num),
    (h.1 2 (by norm_num) (by norm_num)).2 (by norm_num)⟩

/-! ## Normalizer lemmas -/

lemma maxVal_succ (sp : ℕ → ℝ) (n : ℕ) :
    maxVal sp (n + 1) = if sp n > maxVal sp n then sp n else maxVal sp n := by
  unfold maxVal
  rw [List.range_succ n, List.foldl_append, List.foldl_cons, List.foldl_nil]

lemma maxVal_nonneg (sp : ℕ → ℝ) (size : ℕ) : 0 ≤ maxVal sp size := by
  induction size with
  | zero => simp [maxVal]
  | succ n ih =>
      rw [maxVal_succ]
      split_ifs with h
      · linarith
      · exact ih

lemma le_maxVal (sp : ℕ → ℝ) (size i : ℕ) (hi : i < size) : sp i ≤ maxVal sp size := by
  induction size with
  | zero => omega
  | succ n ih =>
      rw [maxVal_succ]
      rcases Nat.lt_succ_iff_lt_or_eq.mp hi with h | h
      · have hrec := ih h
        split_ifs with hgt
        · linarith
        · exact hrec
      · subst h
        split_ifs with hgt
        · exact le_refl _
        · exact not_lt.mp hgt

lemma maxVal_le (sp : ℕ → ℝ) (size : ℕ) (c : ℝ) (hc : 0 ≤ c)
    (h : ∀ i, i < size → sp i ≤ c) : maxVal sp size ≤ c := by
  induction size with
  | zero => simpa [maxVal] using hc
  | succ n ih =>
      rw [maxVal_succ]
      split_ifs with hgt
      · exact h n (by omega)
      · exact ih fun i hi => h i (by omega)

lemma maxVal_attained (sp : ℕ → ℝ) (size : ℕ) (hpos : 0 < maxVal sp size) :
    ∃ i, i < size ∧ sp i = maxVal sp size := by
  induction size with
  | zero => simp [maxVal] at hpos
  | succ n ih =>
      rw [maxVal_succ] at hpos ⊢
      split_ifs at hpos ⊢ with hgt
      · exact ⟨n, by omega, rfl⟩
      · rcases ih hpos with ⟨i, hi, hie⟩
        exact ⟨i, by omega, hie⟩

lemma maxVal_congr (f g : ℕ → ℝ) (size : ℕ) (h : ∀ i, i < size → f i = g i) :
    maxVal f size = maxVal g size := by
  induction size with
  | zero => rfl
  | succ n ih =>
      rw [maxVal_succ, maxVal_succ, ih fun i hi => h i (by omega), h n (by omega)]

lemma maxVal_eq_of_bounds (sp : ℕ → ℝ) (size : ℕ) (c : ℝ) (hc : 0 ≤ c)
    (hle : ∀ i, i < size → sp i ≤ c) (hex : ∃ i, i < size ∧ sp i = c) :
    maxVal sp size = c := by
  rcases hex with ⟨i, hi, hie⟩
  refine le_antisymm (maxVal_le sp size c hc hle) ?_
  calc c = sp i := hie.symm
    _ ≤ maxVal sp size := le_maxVal sp size i hi

lemma normalizeSpectrogram_apply (sp : ℕ → ℝ) (size i : ℕ) (hpos : 0 < maxVal sp size) (hi : i < size) :
    normalizeSpectrogram sp size i = sp i / maxVal sp size := by
  unfold normalizeSpectrogram
  rw [if_pos hpos]
  show (if i < size then sp i / maxVal sp size else sp i) = sp i / maxVal sp size
  rw [if_pos hi]

lemma normalize_zero_max (sp : ℕ → ℝ) (size : ℕ) (hz : maxVal sp size = 0) :
    normalizeSpectrogram sp size = sp := by
  unfold normalizeSpectrogram
  rw [if_neg]
  rw [hz]
  exact lt_irrefl 0

lemma normalize_bounds (sp : ℕ → ℝ) (size : ℕ) (hnn : ∀ i, 0 ≤ sp i)
    (hpos : 0 < maxVal sp size) :
    (∀ i, i < size → 0 ≤ normalizeSpectrogram sp size i ∧ normalizeSpectrogram sp size i ≤ 1)
      ∧ maxVal (normalizeSpectrogram sp size) size = 1 := by
  have hb : ∀ i, i < size →
      0 ≤ normalizeSpectrogram sp size i ∧ normalizeSpectrogram sp size i ≤ 1 := by
    intro i hi
    rw [normalizeSpectrogram_apply sp size i hpos hi]
    constructor
    · exact div_nonneg (hnn i) (le_of_lt hpos)
    · exact (div_le_one hpos).mpr (le_maxVal sp size i hi)
  refine ⟨hb, maxVal_eq_of_bounds _ _ _ (by norm_num) (fun i hi => (hb i hi).2) ?_⟩
  rcases maxVal_attained sp size hpos with ⟨i, hi, hie⟩
  refine ⟨i, hi, ?_⟩
  rw [normalizeSpectrogram_apply sp size i hpos hi, hie, div_self (ne_of_gt hpos)]

lemma normalize_of_max_one (f : ℕ → ℝ) (size : ℕ) (h1 : maxVal f size = 1) :
    normalizeSpectrogram f size = f := by
  unfold normalizeSpectrogram
  rw [h1, if_pos one_pos]
  funext i
  show (if i < size then f i / 1 else f i) = f i
  by_cases hi : i < size
  · rw [if_pos hi, div_one]
  · rw [if_neg hi]

/-- Claim C5: `normalizeSpectrogram` on the `NUM_MELS * NUM_FRAMES` matrix of
non-negative values: if the maximum is strictly positive, afterwards every
element lies in `[0, 1]` and the maximum element equals exactly `1`; if the
maximum is zero the matrix is left completely unchanged. -/
theorem claim_C5_normalize (sp : ℕ → ℝ) (hnn : ∀ i, 0 ≤ sp i) :
    (0 < maxVal sp (NUM_MELS * NUM_FRAMES) →
      (∀ i, i < NUM_MELS * NUM_FRAMES →
        0 ≤ normalizeSpectrogram sp (NUM_MELS * NUM_FRAMES) i
          ∧ normalizeSpectrogram sp (NUM_MELS * NUM_FRAMES) i ≤ 1)
      ∧ maxVal (normalizeSpectrogram sp (NUM_MELS * NUM_FRAMES)) (NUM_MELS * NUM_FRAMES) = 1)
    ∧ (maxVal sp (NUM_MELS * NUM_FRAMES) = 0 →
      normalizeSpectrogram sp (NUM_MELS * NUM_FRAMES) = sp) :=
  ⟨fun hpos => normalize_bounds sp _ hnn hpos, fun hz => normalize_zero_max sp _ hz⟩

/-- Witness for claim C5 on the all-zero matrix. -/
theorem claim_C5_witness :
    (0 < maxVal (fun _ => (0 : ℝ)) (NUM_MELS * NUM_FRAMES) →
      (∀ i, i < NUM_MELS * NUM_FRAMES →
        0 ≤ normalizeSpectrogram (fun _ => (0 : ℝ)) (NUM_MELS * NUM_FRAMES) i
          ∧ normalizeSpectrogram (fun _ => (0 : ℝ)) (NUM_MELS * NUM_FRAMES) i ≤ 1)
      ∧ maxVal (normalizeSpectrogram (fun _ => (0 : ℝ)) (NUM_MELS * NUM_FRAMES))
          (NUM_MELS * NUM_FRAMES) = 1)
    ∧ (maxVal (fun _ => (0 : ℝ)) (NUM_MELS * NUM_FRAMES) = 0 →
      normalizeSpectrogram (fun _ => (0 : ℝ)) (NUM_MELS * NUM_FRAMES) = fun _ => (0 : ℝ)) :=
  claim_C5_normalize (fun _ => 0) fun _ => le_refl 0

/-- Claim C6: `normalizeSpectrogram` is idempotent on non-negative matrices
of `NUM_MELS * NUM_FRAMES` values: the second application is a no-op
because the maximum after the first application is either `1` or `0`. -/
theorem claim_C6_idempotent (sp : ℕ → ℝ) (hnn : ∀ i, 0 ≤ sp i) :
    normalizeSpectrogram (normalizeSpectrogram sp (NUM_MELS * NUM_FRAMES))
        (NUM_MELS * NUM_FRAMES)
      = normalizeSpectrogram sp (NUM_MELS * NUM_FRAMES) := by
  by_cases hpos : 0 < maxVal sp (NUM_MELS * NUM_FRAMES)
  · exact normalize_of_max_one _ _ (normalize_bounds sp _ hnn hpos).2
  · have hz : maxVal sp (NUM_MELS * NUM_FRAMES) = 0 :=
      le_antisymm (not_lt.mp hpos) (maxVal_nonneg sp _)
    rw [normalize_zero_max sp _ hz, normalize_zero_max sp _ hz]

/-- Witness for claim C6 on the all-zero matrix. -/
theorem claim_C6_witness :
    normalizeSpectrogram (normalizeSpectrogram (fun _ => (0 : ℝ)) (NUM_MELS * NUM_FRAMES))
        (NUM_MELS * NUM_FRAMES)
      = normalizeSpectrogram (fun _ => (0 : ℝ)) (NUM_MELS * NUM_FRAMES) :=
  claim_C6_idempotent (fun _ => 0) fun _ => le_refl 0

/-! ## Frame aggregation lemmas -/

/-- Claim C8: frame extraction is total and in-bounds.  Sample `i` of the
extracted frame equals `audio[f*H + i]` when `f*H + i < BUFFER_SIZE` and `0`
otherwise; under the configured sizes, where
`BUFFER_SIZE = NUM_FRAMES * HOP_LENGTH + FFT_SIZE`, every read index
`f*H + i` with `f < NUM_FRAMES`, `i < FFT_SIZE` is strictly below
`BUFFER_SIZE`, so the zero-fill branch is never taken. -/
theorem claim_C8_frame_extraction (audio : ℕ → ℝ) (f i : ℕ)
    (hf : f < NUM_FRAMES) (hi : i < FFT_SIZE) :
    BUFFER_SIZE = NUM_FRAMES * HOP_LENGTH + FFT_SIZE
    ∧ frameBuffer audio f i
        = (if f * HOP_LENGTH + i < BUFFER_SIZE then audio (f * HOP_LENGTH + i) else 0)
    ∧ f * HOP_LENGTH + i < BUFFER_SIZE
    ∧ frameBuffer audio f i = audio (f * HOP_LENGTH + i) := by
  have hb : f * HOP_LENGTH + i < BUFFER_SIZE := by
    simp only [NUM_FRAMES, FFT_SIZE, HOP_LENGTH, BUFFER_SIZE] at *
    omega
  refine ⟨rfl, rfl, hb, ?_⟩
  unfold frameBuffer
  rw [if_pos hb]

/-- Witness for claim C8 at the last frame and last sample. -/
theorem claim_C8_witness :
    BUFFER_SIZE = NUM_FRAMES * HOP_LENGTH + FFT_SIZE
    ∧ frameBuffer (fun _ => (1 : ℝ)) 48 511
        = (if 48 * HOP_LENGTH + 511 < BUFFER_SIZE
            then (fun _ => (1 : ℝ)) (48 * HOP_LENGTH + 511) else 0)
    ∧ 48 * HOP_LENGTH + 511 < BUFFER_SIZE
    ∧ frameBuffer (fun _ => (1 : ℝ)) 48 511 = (fun _ => (1 : ℝ)) (48 * HOP_LENGTH + 511) :=
  claim_C8_frame_extraction (fun _ => 1) 48 511
    (by norm_num [NUM_FRAMES]) (by norm_num [FFT_SIZE])

lemma writeFrame_foldl_audio (e : ℕ → ℝ) (frame : ℕ) (l : List ℕ) (st : MachineState) :
    (l.foldl (fun s mel =>
        { s with spec := Function.update s.spec (mel * NUM_FRAMES + frame) (e mel) }) st).audio
      = st.audio := by
  induction l generalizing st with
  | nil => rfl
  | cons x l ih => rw [List.foldl_cons]; exact ih _

lemma writeFrame_audio (st : MachineState) (frame : ℕ) :
    (writeFrame st frame).audio = st.audio := by
  unfold writeFrame
  exact writeFrame_foldl_audio (frameEnergies st.audio frame) frame _ st

lemma frames_foldl_audio (l : List ℕ) (st : MachineState) :
    (l.foldl writeFrame st).audio = st.audio := by
  induction l generalizing st with
  | nil => rfl
  | cons x l ih => rw [List.foldl_cons, ih]; exact writeFrame_audio st x

/-- Claim C10: `audioToMelSpectrogram` never modifies the caller's audio
buffer; all stores target the local working buffers or the spectrogram. -/
theorem claim_C10_audio_preserved (st : MachineState) :
    (audioToMelSpectrogram st).audio = st.audio := by
  simp only [audioToMelSpectrogram]
  exact frames_foldl_audio _ st

lemma bin_div (b f F : ℕ) (hf : f < F) : (b * F + f) / F = b := by
  rw [Nat.mul_comm b F, Nat.mul_add_div (by omega), Nat.div_eq_of_lt hf, Nat.add_zero]

lemma bin_mod (b f F : ℕ) (hf : f < F) : (b * F + f) % F = f := by
  rw [Nat.mul_comm b F, Nat.mul_add_mod, Nat.mod_eq_of_lt hf]

/-- After the first `t` writes of one frame's column, exactly the slots
`mel * F + frame` for `mel < t` hold the new energies. -/
lemma foldl_update_spec (e : ℕ → ℝ) (F frame t : ℕ) (st : MachineState) (hframe : frame < F) :
    ((List.range t).foldl (fun s mel =>
        { s with spec := Function.update s.spec (mel * F + frame) (e mel) }) st).spec
      = fun idx => if idx % F = frame ∧ idx / F < t then e (idx / F) else st.spec idx := by
  induction t with
  | zero =>
      funext idx
      simp only [List.range_zero, List.foldl_nil]
      rw [if_neg fun h => Nat.not_lt_zero _ h.2]
  | succ t ih =>
      rw [List.range_succ t, List.foldl_append, List.foldl_cons, List.foldl_nil]
      funext idx
      show Function.update
          (((List.range t).foldl (fun s mel =>
            { s with spec := Function.update s.spec (mel * F + frame) (e mel) }) st).spec)
          (t * F + frame) (e t) idx = _
      rw [ih, Function.update_apply]
      have hmod : (t * F + frame) % F = frame := bin_mod t frame F hframe
      have hdiv : (t * F + frame) / F = t := bin_div t frame F hframe
      by_cases h : idx = t * F + frame
      · subst h
        rw [if_pos rfl, if_pos ⟨hmod, by rw [hdiv]; exact Nat.lt_succ_self t⟩, hdiv]
      · rw [if_neg h]
        by_cases h2 : idx % F = frame ∧ idx / F < t
        · rw [if_pos h2, if_pos ⟨h2.1, Nat.lt_succ_of_lt h2.2⟩]
        · rw [if_neg h2, if_neg ?_]
          rintro ⟨ha, hb⟩
          rcases Nat.lt_succ_iff_lt_or_eq.mp hb with hlt | heq
          · exact h2 ⟨ha, hlt⟩
          · refine h ?_
            have hdm := Nat.div_add_mod idx F
            rw [heq, ha] at hdm
            rw [Nat.mul_comm t F]
            exact hdm.symm

/-- The spectrogram column written by one frame iteration. -/
lemma writeFrame_spec (st : MachineState) (frame : ℕ) (hframe : frame < NUM_FRAMES) :
    (writeFrame st frame).spec
      = fun idx => if idx % NUM_FRAMES = frame ∧ idx / NUM_FRAMES < NUM_MELS
          then frameEnergies st.audio frame (idx / NUM_FRAMES) else st.spec idx := by
  unfold writeFrame
  exact foldl_update_spec (frameEnergies st.audio frame) NUM_FRAMES frame NUM_MELS st hframe

/-- The spectrogram contents after the first `t` frames have been written. -/
lemma frames_foldl_spec (t : ℕ) (ht : t ≤ NUM_FRAMES) (st : MachineState) :
    ((List.range t).foldl writeFrame st).spec
      = fun idx => if idx % NUM_FRAMES < t ∧ idx / NUM_FRAMES < NUM_MELS
          then frameEnergies st.audio (idx % NUM_FRAMES) (idx / NUM_FRAMES)
          else st.spec idx := by
  induction t with
  | zero =>
      funext idx
      simp only [List.range_zero, List.foldl_nil]
      rw [if_neg (by omega)]
  | succ t ih =>
      rw [List.range_succ t, List.foldl_append, List.foldl_cons, List.foldl_nil,
        writeFrame_spec _ t (by omega)]
      funext idx
      rw [frames_foldl_audio, ih (by omega)]
      show (if idx % NUM_FRAMES = t ∧ idx / NUM_FRAMES < NUM_MELS
          then frameEnergies st.audio t (idx / NUM_FRAMES)
          else if idx % NUM_FRAMES < t ∧ idx / NUM_FRAMES < NUM_MELS
            then frameEnergies st.audio (idx % NUM_FRAMES) (idx / NUM_FRAMES)
            else st.spec idx) = _
      by_cases h1 : idx % NUM_FRAMES = t ∧ idx / NUM_FRAMES < NUM_MELS
      · rw [if_pos h1, if_pos ⟨by rw [h1.1]; exact Nat.lt_succ_self t, h1.2⟩, h1.1]
      · rw [if_neg h1]
        by_cases h2 : idx % NUM_FRAMES < t ∧ idx / NUM_FRAMES < NUM_MELS
        · rw [if_pos h2, if_pos ⟨Nat.lt_succ_of_lt h2.1, h2.2⟩]
        · rw [if_neg h2, if_neg ?_]
          rintro ⟨ha, hb⟩
          rcases Nat.lt_succ_iff_lt_or_eq.mp ha with hlt | heq
          · exact h2 ⟨hlt, hb⟩
          · exact h1 ⟨heq, hb⟩

/-- Every in-range slot of the assembled (pre-normalization) spectrogram
holds the energy of band `idx / NUM_FRAMES` at frame `idx % NUM_FRAMES`. -/
lemma assembled_spec (st : MachineState) (idx : ℕ) (hidx : idx < NUM_MELS * NUM_FRAMES) :
    ((List.range NUM_FRAMES).foldl writeFrame st).spec idx
      = featureMatrix st.audio (idx / NUM_FRAMES) (idx % NUM_FRAMES) := by
  rw [frames_foldl_spec NUM_FRAMES le_rfl st]
  show (if idx % NUM_FRAMES < NUM_FRAMES ∧ idx / NUM_FRAMES < NUM_MELS
      then frameEnergies st.audio (idx % NUM_FRAMES) (idx / NUM_FRAMES)
      else st.spec idx) = _
  have hdivlt : idx / NUM_FRAMES < NUM_MELS := by
    rw [Nat.div_lt_iff_lt_mul (by norm_num [NUM_FRAMES])]
    exact hidx
  rw [if_pos ⟨Nat.mod_lt _ (by norm_num [NUM_FRAMES]), hdivlt⟩]
  rfl

/-- The code's global maximum scan over the flat array agrees with the
specification-side maximum of the feature matrix. -/
lemma maxVal_assembled (st : MachineState) :
    maxVal ((List.range NUM_FRAMES).foldl writeFrame st).spec (NUM_MELS * NUM_FRAMES)
      = featureMax st.audio := by
  unfold featureMax
  exact maxVal_congr _ _ _ fun i hi => assembled_spec st i hi

/-- Claim C7: the final output of `audioToMelSpectrogram` stores the
(globally normalized) energy of mel band `b` at frame `f` at flat index
`b * NUM_FRAMES + f` (band-major layout, frame varying fastest). -/
theorem claim_C7_layout (st : MachineState) (b f : ℕ)
    (hb : b < NUM_MELS) (hf : f < NUM_FRAMES) :
    (audioToMelSpectrogram st).spec (b * NUM_FRAMES + f) = finalFeature st.audio b f := by
  have hidx : b * NUM_FRAMES + f < NUM_MELS * NUM_FRAMES := by
    simp only [NUM_FRAMES, NUM_MELS] at *
    omega
  have hraw : ((List.range NUM_FRAMES).foldl writeFrame st).spec (b * NUM_FRAMES + f)
      = featureMatrix st.audio b f := by
    rw [assembled_spec st _ hidx, bin_div b f NUM_FRAMES hf, bin_mod b f NUM_FRAMES hf]
  show normalizeSpectrogram ((List.range NUM_FRAMES).foldl writeFrame st).spec
      (NUM_MELS * NUM_FRAMES) (b * NUM_FRAMES + f) = finalFeature st.audio b f
  unfold normalizeSpectrogram finalFeature
  rw [maxVal_assembled st]
  by_cases hpos : 0 < featureMax st.audio
  · rw [if_pos hpos, if_pos hpos]
    show (if b * NUM_FRAMES + f < NUM_MELS * NUM_FRAMES
        then ((List.range NUM_FRAMES).foldl writeFrame st).spec (b * NUM_FRAMES + f)
          / featureMax st.audio
        else ((List.range NUM_FRAMES).foldl writeFrame st).spec (b * NUM_FRAMES + f)) = _
    rw [if_pos hidx, hraw]
  · rw [if_neg hpos, if_neg hpos, hraw]

/-- Witness for claim C7 at band `3`, frame `5`, on a silent buffer. -/
theorem claim_C7_witness :
    (audioToMelSpectrogram ⟨fun _ => 0, fun _ => 0⟩).spec (3 * NUM_FRAMES + 5)
      = finalFeature (fun _ => 0) 3 5 :=
  claim_C7_layout ⟨fun _ => 0, fun _ => 0⟩ 3 5
    (by norm_num [NUM_MELS]) (by norm_num [NUM_FRAMES])

/-! ## Mel filterbank geometry under the default configuration -/

lemma mel_max_ge_mel_min : mel_min ≤ mel_max := by
  unfold mel_min mel_max hzToMel
  have h : Real.logb 10 (1 + (MIN_FREQ : ℝ) / 700) ≤ Real.logb 10 (1 + (MAX_FREQ : ℝ) / 700) := by
    apply Real.logb_le_logb_of_le (by norm_num)
    · norm_num [MIN_FREQ]
    · norm_num [MIN_FREQ, MAX_FREQ]
  linarith

lemma mel_step_nonneg : 0 ≤ mel_step := by
  unfold mel_step
  apply div_nonneg
  · linarith [mel_max_ge_mel_min]
  · norm_num [NUM_MELS]

lemma mel_points_mono {i j : ℕ} (hij : i ≤ j) : mel_points i ≤ mel_points j := by
  unfold mel_points
  have hstep := mel_step_nonneg
  have hc : (i : ℝ) ≤ (j : ℝ) := Nat.cast_le.mpr hij
  nlinarith

lemma melToHz_mono {x y : ℝ} (hxy : x ≤ y) : melToHz x ≤ melToHz y := by
  unfold melToHz
  have h : (10 : ℝ) ^ (x / 2595) ≤ (10 : ℝ) ^ (y / 2595) := by
    apply (Real.rpow_le_rpow_left_iff (by norm_num)).mpr
    linarith
  linarith

lemma freq_points_mono {i j : ℕ} (hij : i ≤ j) : freq_points i ≤ freq_points j :=
  melToHz_mono (mel_points_mono hij)

/-- Claim C9: under the default configuration the `NUM_MELS + 2` mapped bin
indices are monotonically non-decreasing, so every filter `i` satisfies
`leftBin <= centerBin <= rightBin`. -/
theorem claim_C9_bins_monotone (i j : ℕ) (hij : i ≤ j) (_hj : j < NUM_MELS + 2) :
    fft_indices i ≤ fft_indices j := by
  unfold fft_indices
  have hmono := freq_points_mono hij
  have hf : (0 : ℝ) ≤ (FFT_SIZE : ℝ) := by norm_num [FFT_SIZE]
  have hs : (0 : ℝ) < (SAMPLE_RATE : ℝ) := by norm_num [SAMPLE_RATE]
  have h1 : freq_points i * (FFT_SIZE : ℝ) / (SAMPLE_RATE : ℝ)
      ≤ freq_points j * (FFT_SIZE : ℝ) / (SAMPLE_RATE : ℝ) :=
    (div_le_div_iff_of_pos_right hs).mpr (mul_le_mul_of_nonneg_right hmono hf)
  rw [round_eq, round_eq]
  exact Int.floor_mono (by linarith)

/-- Witness for claim C9: the first and last mapped bin indices, and the
bin triple of filter `0`, are ordered. -/
theorem claim_C9_witness :
    fft_indices 0 ≤ fft_indices 41
      ∧ fft_indices 0 ≤ fft_indices 1 ∧ fft_indices 1 ≤ fft_indices 2 :=
  ⟨claim_C9_bins_monotone 0 41 (by norm_num) (by norm_num [NUM_MELS]),
    claim_C9_bins_monotone 0 1 (by norm_num) (by norm_num [NUM_MELS]),
    claim_C9_bins_monotone 1 2 (by norm_num) (by norm_num [NUM_MELS])⟩

end
